import Mathlib

/-!
Verification of the chift-mcp tool-generation and access-control pipeline.

Shallow embedding of the relevant source functions:
* `src/chift_mcp/tools.py` — `ToolCustomizer._iter_pages` / `pagination_response`
* `src/chift_mcp/utils/parse_openapi_deps.py` — `resolve_refs_recursive`
* `src/chift_mcp/tools/generator.py` — `_extract_vertical_model`,
  `_generate_call_string`
* `src/chift_mcp/middleware.py` — `FilterToolsMiddleware`
* `src/chift_mcp/utils/utils.py` — `CONNECTION_TYPES`, `get_connection_types`
* `src/chift_mcp/utils/importer.py` — `validate_config`
-/

namespace ChiftMcp

/-! ## Pagination flattening (`ToolCustomizer` in `src/chift_mcp/tools.py`)

`_iter_pages` issues sequential `forward(...)` page fetches.  We model the
sequence of upstream page responses as a list: each response's structured
content carries an `items` list and a `total` count (the claims only concern
responses of this shape, for which `if structured_content:` is truthy).
The loop stops after a page when `count >= total`, the page was empty, or
(`limit` truthy and) `count >= limit`; otherwise it fetches the next page. -/

structure PageResp where
  items : List Int
  total : Nat
deriving DecidableEq, Repr

/-- `self.size = limit if limit and limit < 100 else 100` in
`_iter_pages`: the page size requested from upstream. -/
def initSize (limit : Nat) : Nat :=
  if limit ≠ 0 ∧ limit < 100 then limit else 100

/-- Stop condition evaluated after consuming one page, with `count` the
number of items accumulated before this page:
`(self.count >= self.total or not items) or (limit and self.count >= limit)`. -/
def stopAfter (limit count : Nat) (p : PageResp) : Bool :=
  (decide (count + p.items.length ≥ p.total) || p.items.isEmpty)
    || (decide (limit ≠ 0) && decide (count + p.items.length ≥ limit))

/-- The fetch loop of `_iter_pages`, threading the upstream responses.
`page` is the value of `self.page` used for the current fetch and `count`
the accumulated item count.  Returns the accumulated items together with
the list of page numbers at which a fetch was issued (`self.page` starts
at 1 and is incremented after every consumed response). -/
def iterPages (limit : Nat) : Nat → Nat → List PageResp → List Int × List Nat
  | _, _, [] => ([], [])
  | page, count, p :: rest =>
    if stopAfter limit count p then
      (p.items, [page])
    else
      let r := iterPages limit (page + 1) (count + p.items.length) rest
      (p.items ++ r.1, page :: r.2)

/-- `pagination_response`: accumulates all pages yielded by `_iter_pages`
(first component) and records the issued fetches (second component). -/
def pagination_response (limit : Nat) (pages : List PageResp) : List Int × List Nat :=
  iterPages limit 1 0 pages

/-- Number of pages the loop consumes: one more than the number of
leading pages at which the stop condition does not fire (capped by the
number of available responses). -/
def fetchCount (limit : Nat) : Nat → List PageResp → Nat
  | _, [] => 0
  | count, p :: rest =>
    if stopAfter limit count p then 1
    else 1 + fetchCount limit (count + p.items.length) rest

/-- The example page responses from the spec:
`[{items:[1,2],total:3}, {items:[3],total:3}]`. -/
def examplePages : List PageResp :=
  [⟨[1, 2], 3⟩, ⟨[3], 3⟩]

/-! ## OpenAPI `$ref` resolution
(`resolve_refs_recursive` in `src/chift_mcp/utils/parse_openapi_deps.py`)

JSON values are modelled by `Json`.  The Python recursion is embedded with an
explicit fuel argument; `RErr.outOfFuel` marks fuel exhaustion (an artifact of
the embedding, shown unreachable for sufficient fuel) and `RErr.typeErr`
models the `AttributeError` Python raises when a lone `$ref` key holds a
non-string value (`ref_path.startswith` on a non-string). -/

inductive Json where
  | null : Json
  | bool : Bool → Json
  | str : String → Json
  | num : Int → Json
  | arr : List Json → Json
  | obj : List (String × Json) → Json
deriving Repr

inductive RErr where
  | typeErr : RErr
  | outOfFuel : RErr
deriving DecidableEq, Repr

def schemaPrefix : String := "#/components/schemas/"

/-- Python `str.split("/")` over the character list. -/
def splitSlash : List Char → List (List Char)
  | [] => [[]]
  | c :: cs =>
    let r := splitSlash cs
    if c = '/' then [] :: r
    else
      match r with
      | [] => [[c]]
      | seg :: rest => (c :: seg) :: rest

/-- Python `ref_path.split("/")[-1]`. -/
def lastSegment (s : String) : String :=
  String.mk ((splitSlash s.toList).getLastD [])

/-- Python `str.startswith`, modelled on character lists. -/
def startsWithStr (s pre : String) : Bool :=
  pre.toList.isPrefixOf s.toList

/-- Python `"$ref" in obj and len(obj) == 1`: the dictionary has exactly one
entry and its key is `"$ref"`; returns that entry's value. -/
def isSingleRef : List (String × Json) → Option Json
  | [(k, v)] => if k = "$ref" then some v else none
  | _ => none

/-- Python dictionary lookup (`schema_name in components_schemas` /
`components_schemas[schema_name]`). -/
def lookupSchema (schemas : List (String × Json)) (name : String) : Option Json :=
  match schemas with
  | [] => none
  | (k, v) :: rest => if k = name then some v else lookupSchema rest name

/-- Python `{"$circular_ref": ref_path}`. -/
def circularMarker (refPath : String) : Json :=
  Json.obj [("$circular_ref", Json.str refPath)]

/-- Resolve each value of a dictionary in order, short-circuiting on the
first error (Python raises out of the comprehension-style loop). -/
def resolveEach (f : Json → Except RErr Json) :
    List (String × Json) → Except RErr (List (String × Json))
  | [] => .ok []
  | (k, v) :: rest =>
    match f v with
    | .error e => .error e
    | .ok v' =>
      match resolveEach f rest with
      | .error e => .error e
      | .ok rest' => .ok ((k, v') :: rest')

/-- Resolve each item of a list in order, short-circuiting on error. -/
def resolveArr (f : Json → Except RErr Json) :
    List Json → Except RErr (List Json)
  | [] => .ok []
  | x :: rest =>
    match f x with
    | .error e => .error e
    | .ok x' =>
      match resolveArr f rest with
      | .error e => .error e
      | .ok rest' => .ok (x' :: rest')

/-- `resolve_refs_recursive(obj, visited_refs)` with fuel.  Mirrors the
Python branch structure: a lone string-valued `$ref` entry inside the
component-schema namespace is expanded (circular paths yield the marker,
missing names pass through unchanged); refs outside the namespace pass
through; other dictionaries and lists resolve their members; primitives are
returned as-is. -/
def resolveFuel (schemas : List (String × Json)) :
    Nat → Json → List String → Except RErr Json
  | 0, _, _ => .error RErr.outOfFuel
  | n + 1, Json.obj fields, visited =>
    match isSingleRef fields with
    | some (Json.str refPath) =>
      if startsWithStr refPath schemaPrefix then
        if refPath ∈ visited then
          .ok (circularMarker refPath)
        else
          match lookupSchema schemas (lastSegment refPath) with
          | some schema => resolveFuel schemas n schema (refPath :: visited)
          | none => .ok (Json.obj fields)
      else
        .ok (Json.obj fields)
    | some _ => .error RErr.typeErr
    | none =>
      match resolveEach (fun v => resolveFuel schemas n v visited) fields with
      | .error e => .error e
      | .ok fields' => .ok (Json.obj fields')
  | n + 1, Json.arr xs, visited =>
    match resolveArr (fun v => resolveFuel schemas n v visited) xs with
    | .error e => .error e
    | .ok xs' => .ok (Json.arr xs')
  | _ + 1, x, _ => .ok x

/-- The cyclic schema table of the claim: `A` references `B` and `B`
references `A`. -/
def cycSchemas : List (String × Json) :=
  [("A", Json.obj [("$ref", Json.str "#/components/schemas/B")]),
   ("B", Json.obj [("$ref", Json.str "#/components/schemas/A")])]

/-! ### Termination of the resolver

Every ref path pushed onto `visited` is a string literal occurring in the
input or in the schema table, and expansion only happens for paths not yet
visited — so the number of expansions is bounded and a fuel of
`resolveBound` below never runs out. -/

mutual

/-- All string leaves occurring in a JSON value. -/
def strs : Json → List String
  | Json.str s => [s]
  | Json.arr xs => strsList xs
  | Json.obj fs => strsFields fs
  | Json.null => []
  | Json.bool _ => []
  | Json.num _ => []

def strsList : List Json → List String
  | [] => []
  | x :: xs => strs x ++ strsList xs

def strsFields : List (String × Json) → List String
  | [] => []
  | (_, v) :: fs => strs v ++ strsFields fs

end

mutual

/-- Structural size of a JSON value (used only for the fuel bound). -/
def jsize : Json → Nat
  | Json.arr xs => 1 + jsizeList xs
  | Json.obj fs => 1 + jsizeFields fs
  | Json.null => 1
  | Json.bool _ => 1
  | Json.str _ => 1
  | Json.num _ => 1

def jsizeList : List Json → Nat
  | [] => 0
  | x :: xs => 1 + jsize x + jsizeList xs

def jsizeFields : List (String × Json) → Nat
  | [] => 0
  | (_, v) :: fs => 1 + jsize v + jsizeFields fs

end

/-- Largest size of a schema body in the table. -/
def maxSchemaSize : List (String × Json) → Nat
  | [] => 0
  | (_, v) :: rest => max (jsize v) (maxSchemaSize rest)

/-- Number of candidate ref paths not yet marked in-progress. -/
def unvisitedCount (P visited : List String) : Nat :=
  match P with
  | [] => 0
  | q :: P' => (if q ∈ visited then 0 else 1) + unvisitedCount P' visited

/-- Fuel sufficient for `resolveFuel` to finish on `obj`. -/
def resolveBound (schemas : List (String × Json)) (obj : Json)
    (visited : List String) : Nat :=
  jsize obj +
    unvisitedCount (strs obj ++ strsFields schemas) visited *
      (maxSchemaSize schemas + 1)

/-- Schema table and input for the sibling-keys behavior: the input node
carries `$ref` together with a sibling key whose value is itself a
resolvable reference. -/
def sibSchemas : List (String × Json) :=
  [("A", Json.obj [("type", Json.str "string")])]

def sibObj : Json :=
  Json.obj [("$ref", Json.str "x"),
    ("extra", Json.obj [("$ref", Json.str "#/components/schemas/A")])]

def sibResolved : Json :=
  Json.obj [("$ref", Json.str "x"),
    ("extra", Json.obj [("type", Json.str "string")])]

/-! ## SDK call-string generation
(`OpenAPIParser._generate_call_string` in `src/chift_mcp/tools/generator.py`;
the variant in `src/tools/generator.py` assembles the same parts)

The generator only reads each parameter's `"name"`, so path and query
parameters are modelled by their names. -/

/-- Python `str.endswith`, modelled on character lists. -/
def endsWithStr (s suffix : String) : Bool :=
  suffix.toList.isSuffixOf s.toList

/-- The `next(...)` predicate: a path parameter other than `consumer_id`
whose name ends in `_id`. -/
def isIdParam (p : String) : Bool :=
  decide (p ≠ "consumer_id") && endsWithStr p "_id"

/-- The `args` list built by `_generate_call_string`: for `get|update|delete`
the first matching id parameter, if any. -/
def positionalArgs (method_name : String) (pathParams : List String) :
    List String :=
  if method_name ∈ ["get", "update", "delete"] then
    match pathParams.find? isIdParam with
    | some p => [p]
    | none => []
  else []

/-- The single `params={...}` keyword entry, one literal `"name": name` pair
per query parameter. -/
def paramsEntry (queryParams : List String) : String :=
  "params=\x7b" ++
    String.intercalate ", "
      (queryParams.map (fun q => "\"" ++ q ++ "\": " ++ q)) ++ "\x7d"

/-- The `kwargs` list built by `_generate_call_string`: `data=data` for
`create|update` with a body, then the remaining path parameters as
`name=name`, then the packed query parameters. -/
def keywordArgs (method_name : String) (pathParams queryParams : List String)
    (hasBody : Bool) : List String :=
  (if hasBody ∧ method_name ∈ ["create", "update"] then ["data=data"] else [])
    ++ (pathParams.filter (fun p =>
          decide (p ≠ "consumer_id") &&
            decide (p ∉ positionalArgs method_name pathParams))).map
        (fun p => p ++ "=" ++ p)
    ++ (if queryParams.isEmpty then [] else [paramsEntry queryParams])

/-- `_generate_call_string`: `consumer.<vertical>.<model>.<method>(...)`
with the joined positional and keyword arguments. -/
def generate_call_string (vertical model method_name : String)
    (pathParams queryParams : List String) (hasBody : Bool) : String :=
  "consumer." ++ vertical ++ "." ++ model ++ "." ++ method_name ++ "(" ++
    String.intercalate ", "
      (positionalArgs method_name pathParams ++
        keywordArgs method_name pathParams queryParams hasBody) ++ ")"

/-! ## Path classification
(`OpenAPIParser._extract_vertical_model` in
`src/chift_mcp/tools/generator.py`)

`re.match(r"/consumers/\{[^}]+\}/([^/]+)/([^/{]+)", path)` is a prefix
match whose greedy character classes are deterministic, so it is embedded
as maximal-munch scanning over the character list.  The Python
`model.rstrip("/").split("{")[0].rstrip("/")` post-processing is the
identity on a `[^/{]+` capture (no `/` or `{` can occur in it) and is
therefore not repeated here. -/

/-- Consume an expected literal prefix. -/
def stripLit : List Char → List Char → Option (List Char)
  | [], rest => some rest
  | _ :: _, [] => none
  | c :: cs, d :: ds => if d = c then stripLit cs ds else none

/-- `([^/{]+)`: the second capture group (the resource). -/
def matchModel (vert r5 : List Char) : Option (List Char × List Char) :=
  let md := r5.takeWhile (fun c => c != '/' && c != '{')
  if md.isEmpty then none else some (vert, md)

/-- The literal `/` between the two capture groups. -/
def matchSlash2 (vert : List Char) : List Char → Option (List Char × List Char)
  | c4 :: r5 => if c4 = '/' then matchModel vert r5 else none
  | [] => none

/-- `([^/]+)/`: the first capture group (the vertical) and its slash. -/
def matchVert (r3 : List Char) : Option (List Char × List Char) :=
  let vert := r3.takeWhile (fun c => c != '/')
  let r4 := r3.dropWhile (fun c => c != '/')
  if vert.isEmpty then none else matchSlash2 vert r4

/-- The literal `}/` closing the consumer-id parameter. -/
def matchBraceSlash : List Char → Option (List Char × List Char)
  | c1 :: c2 :: r3 => if c1 = '}' ∧ c2 = '/' then matchVert r3 else none
  | _ => none

/-- `[^}]+\}/...`: the consumer-id parameter body and the rest. -/
def matchAfterBrace (r1 : List Char) : Option (List Char × List Char) :=
  let g1 := r1.takeWhile (fun c => c != '}')
  let r2 := r1.dropWhile (fun c => c != '}')
  if g1.isEmpty then none else matchBraceSlash r2

/-- Prefix match of `/consumers/\{[^}]+\}/([^/]+)/([^/{]+)`, returning the
two capture groups. -/
def matchTwoSeg (cs : List Char) : Option (List Char × List Char) :=
  (stripLit "/consumers/\x7b".toList cs).bind matchAfterBrace

/-- Python `model.replace("-", "_")`. -/
def normDash (m : List Char) : List Char :=
  m.map (fun c => if c = '-' then '_' else c)

/-- `_extract_vertical_model`: the two-segment consumer-scoped shape yields
`(vertical, resource)` with dashes normalized; otherwise `/consumers` and
any path starting with `/consumers/{` yield the synthetic
`(account, consumer)`; all other paths yield nothing. -/
def extract_vertical_model (path : String) : Option (String × String) :=
  match matchTwoSeg path.toList with
  | some (v, m) => some (String.mk v, String.mk (normDash m))
  | none =>
    if path = "/consumers" ∨ startsWithStr path "/consumers/\x7b" = true then
      some ("account", "consumer")
    else none

/-! ## Capability filtering
(`FilterToolsMiddleware` in `src/chift_mcp/middleware.py` and
`CONNECTION_TYPES` / `get_connection_types` in
`src/chift_mcp/utils/utils.py`)

A tool is modelled by its name and its `tags` attribute (`None`, empty, or
a list of capability tags); the upstream consumer's connections are
modelled by the list of their `api` family strings. -/

structure Tool where
  name : String
  tags : Option (List String)

/-- The fixed `CONNECTION_TYPES` table. -/
def CONNECTION_TYPES : List (String × String) :=
  [("Accounting", "accounting"),
   ("Point of Sale", "pos"),
   ("eCommerce", "ecommerce"),
   ("Invoicing", "invoicing"),
   ("Banking", "banking"),
   ("Payment", "payment"),
   ("Property Management System", "pms"),
   ("Custom", "custom")]

/-- Python dictionary lookup in the fixed table. -/
def lookupType : List (String × String) → String → Option String
  | [], _ => none
  | (k, v) :: rest, api => if k = api then some v else lookupType rest api

/-- `[CONNECTION_TYPES[connection.api] for connection in connections]`: a
missing family raises `KeyError`, modelled as `none` (the comprehension
aborts at the first missing key). -/
def mapTypes : List String → Option (List String)
  | [] => some []
  | api :: rest =>
    match lookupType CONNECTION_TYPES api with
    | none => none
    | some t =>
      match mapTypes rest with
      | none => none
      | some ts => some (t :: ts)

/-- `get_connection_types` (same body as
`FilterToolsMiddleware.connection_types`): all table values when no
consumer is given, otherwise the mapped family of every connection. -/
def get_connection_types (consumer_id : Option String)
    (connections : List String) : Option (List String) :=
  match consumer_id with
  | none => some (CONNECTION_TYPES.map (fun kv => kv.2))
  | some _ => mapTypes connections

/-- The filter condition of `on_list_tools`:
`tool.tags and any(tag in connection_types for tag in tool.tags)`. -/
def toolVisible (connection_types : List String) (t : Tool) : Bool :=
  match t.tags with
  | none => false
  | some tg => !tg.isEmpty && tg.any (fun tag => connection_types.contains tag)

/-- `FilterToolsMiddleware.on_list_tools`: without a bound consumer the
downstream tool list is returned unchanged; with one it is narrowed to the
visible tools. -/
def on_list_tools (consumer_id : Option String)
    (connection_types : List String) (tools : List Tool) : List Tool :=
  match consumer_id with
  | none => tools
  | some _ => tools.filter (toolVisible connection_types)

/-- Example tools for the capability-filter witnesses. -/
def exToolPos : Tool := ⟨"pos_order_all", some ["pos"]⟩

def exToolAcc : Tool := ⟨"accounting_invoice_all", some ["accounting"]⟩

/-! ## Restriction-config validation
(`validate_config` in `src/chift_mcp/utils/importer.py`)

The caller-supplied config is an arbitrary Python value; the shapes the
validator distinguishes are: not a dictionary, a dictionary whose values
are lists of operation strings, or a dictionary value that is not a list. -/

/-- Modelled from the spec: `chift_mcp/constants.py` (the module providing
`CHIFT_DOMAINS`, imported by `validate_config`) is not among the sources.
The spec's configuration surface keys the restriction mapping by domain
(§6); its capability table names the domain tags, and the importer's
docstring and unit tests additionally use `commerce` as a valid domain. -/
def CHIFT_DOMAINS : List String :=
  ["accounting", "commerce", "ecommerce", "invoicing", "banking", "payment",
   "pms", "pos", "custom"]

/-- Modelled from the spec: `chift_mcp/constants.py` (the module providing
`CHIFT_OPERATION_TYPES`) is not among the sources.  The spec's five
canonical operation kinds (§4.2, §4.4). -/
def CHIFT_OPERATION_TYPES : List String :=
  ["get", "all", "create", "update", "delete"]

/-- A dictionary value in the config: a list of operation strings, or any
non-list value. -/
inductive OpsVal where
  | list : List String → OpsVal
  | notAList : OpsVal
deriving DecidableEq

/-- The caller-supplied config value: a dictionary, or any non-dictionary
value. -/
inductive ConfigInput where
  | dict : List (String × OpsVal) → ConfigInput
  | notADict : ConfigInput
deriving DecidableEq

/-- The per-domain loop of `validate_config`: raise on an unrecognized
operation, keep the first occurrence of each operation
(`unique_operations`). -/
def dedupOps : List String → List String → Except String (List String)
  | acc, [] => .ok acc
  | acc, op :: rest =>
    if op ∉ CHIFT_OPERATION_TYPES then .error ("Invalid operation type: " ++ op)
    else if op ∈ acc then dedupOps acc rest
    else dedupOps (acc ++ [op]) rest

/-- The domain loop of `validate_config`. -/
def validateEntries :
    List (String × OpsVal) → Except String (List (String × List String))
  | [] => .ok []
  | (domain, ops) :: rest =>
    if domain ∉ CHIFT_DOMAINS then .error ("Invalid domain: " ++ domain)
    else
      match ops with
      | OpsVal.notAList =>
        .error ("Operations for domain " ++ domain ++ " must be a list")
      | OpsVal.list operations =>
        match dedupOps [] operations with
        | .error e => .error e
        | .ok uniq =>
          match validateEntries rest with
          | .error e => .error e
          | .ok restCfg => .ok ((domain, uniq) :: restCfg)

/-- `validate_config`. -/
def validate_config :
    ConfigInput → Except String (List (String × List String))
  | ConfigInput.notADict => .error "Configuration must be a dictionary"
  | ConfigInput.dict entries => validateEntries entries

/-- The claim-side deduplication: keep the first occurrence of each
operation, preserving order. -/
def dedupFirst : List String → List String
  | [] => []
  | x :: xs => x :: (dedupFirst xs).filter (fun y => decide (y ≠ x))

/-- A config entry the validator rejects: unrecognized domain, non-list
operations value, or an unrecognized operation kind. -/
def entryBad (e : String × OpsVal) : Prop :=
  e.1 ∉ CHIFT_DOMAINS ∨ e.2 = OpsVal.notAList ∨
    ∃ ops, e.2 = OpsVal.list ops ∧ ∃ op ∈ ops, op ∉ CHIFT_OPERATION_TYPES

/-! ## Helper lemmas and claim theorems -/

theorem iterPages_characterization (limit : Nat) :
    ∀ (pages : List PageResp) (page count : Nat),
      iterPages limit page count pages =
        ((((pages.take (fetchCount limit count pages)).map PageResp.items).flatten),
          List.range' page (fetchCount limit count pages)) := by
  intro pages
  induction pages with
  | nil => intro page count; simp [iterPages, fetchCount]
  | cons p rest ih =>
    intro page count
    by_cases h : stopAfter limit count p
    · simp [iterPages, fetchCount, h, List.range']
    · simp only [iterPages, fetchCount, h, if_neg, Bool.false_eq_true, if_false]
      rw [ih (page + 1) (count + p.items.length)]
      rw [Nat.add_comm 1 (fetchCount limit (count + p.items.length) rest)]
      simp [List.range'_succ]

/-- Claim C1: the pagination-flattened invocation starts at page 1 with page
size `min(requested limit, 100)` and accumulates the `items` of successive
pages, stopping as soon as the accumulated count reaches the server-reported
total, a page yields zero items, or the accumulated count reaches the
caller-requested limit; on the example pages with the default limit 50 it
returns `[1,2,3]` and issues exactly the two fetches for pages 1 and 2. -/
theorem pagination_flatten_correct :
    (∀ limit : Nat, 1 ≤ limit → initSize limit = min limit 100) ∧
    (∀ (limit : Nat) (pages : List PageResp),
      pagination_response limit pages =
        (((pages.take (fetchCount limit 0 pages)).map PageResp.items).flatten,
          List.range' 1 (fetchCount limit 0 pages))) ∧
    pagination_response 50 examplePages = ([1, 2, 3], [1, 2]) := by
  refine ⟨?_, ?_, ?_⟩
  · intro limit h
    simp only [initSize]
    split <;> omega
  · intro limit pages
    exact iterPages_characterization limit pages 1 0
  · decide

theorem pagination_flatten_correct_witness :
    initSize 50 = min 50 100 ∧
      pagination_response 50 examplePages =
        (((examplePages.take (fetchCount 50 0 examplePages)).map
            PageResp.items).flatten,
          List.range' 1 (fetchCount 50 0 examplePages)) :=
  ⟨pagination_flatten_correct.1 50 (by decide),
    pagination_flatten_correct.2.1 50 examplePages⟩

/-- Claim C2, counterexample: on the example pages with `limit = 1` the
flattened invocation does not return `[1]` — no truncation to the
caller-requested limit happens. -/
theorem pagination_limit_no_truncation :
    (pagination_response 1 examplePages).1 ≠ [1] := by decide

/-- Claim C2, amended: on the example pages with `limit = 1` the invocation
stops after the first fetch (accumulated count 2 ≥ limit 1, so no further
fetch is issued) but returns the entire first page `[1, 2]` untruncated. -/
theorem pagination_limit_stops_after_first_fetch :
    pagination_response 1 examplePages = ([1, 2], [1]) := by decide

theorem jsize_pos (j : Json) : 0 < jsize j := by
  cases j <;> simp [jsize]

theorem mem_jsizeList {x : Json} {xs : List Json} (hx : x ∈ xs) :
    jsize x < 1 + jsizeList xs := by
  induction xs with
  | nil => cases hx
  | cons y ys ih =>
    rcases List.mem_cons.mp hx with h | h
    · subst h; simp [jsizeList]; omega
    · have := ih h; simp [jsizeList]; omega

theorem mem_jsizeFields {k : String} {v : Json} {fs : List (String × Json)}
    (hx : (k, v) ∈ fs) : jsize v < 1 + jsizeFields fs := by
  induction fs with
  | nil => cases hx
  | cons y ys ih =>
    obtain ⟨y1, y2⟩ := y
    rcases List.mem_cons.mp hx with h | h
    · cases h; simp [jsizeFields]; omega
    · have := ih h; simp [jsizeFields]; omega

theorem mem_strsList {x : Json} {xs : List Json} (hx : x ∈ xs) :
    ∀ s ∈ strs x, s ∈ strsList xs := by
  induction xs with
  | nil => cases hx
  | cons y ys ih =>
    intro s hs
    rcases List.mem_cons.mp hx with h | h
    · subst h; simp [strsList]; exact Or.inl hs
    · simp [strsList]; exact Or.inr (ih h s hs)

theorem mem_strsFields {k : String} {v : Json} {fs : List (String × Json)}
    (hx : (k, v) ∈ fs) : ∀ s ∈ strs v, s ∈ strsFields fs := by
  induction fs with
  | nil => cases hx
  | cons y ys ih =>
    intro s hs
    rcases List.mem_cons.mp hx with h | h
    · obtain ⟨y1, y2⟩ := y
      cases h
      simp [strsFields]; exact Or.inl hs
    · obtain ⟨y1, y2⟩ := y
      simp [strsFields]; exact Or.inr (ih h s hs)

theorem lookupSchema_jsize_le {schemas : List (String × Json)} {name : String}
    {sch : Json} (h : lookupSchema schemas name = some sch) :
    jsize sch ≤ maxSchemaSize schemas := by
  induction schemas with
  | nil => simp [lookupSchema] at h
  | cons kv rest ih =>
    obtain ⟨k, v⟩ := kv
    simp only [lookupSchema] at h
    by_cases hk : k = name
    · rw [if_pos hk] at h
      cases h
      simp [maxSchemaSize]
    · rw [if_neg hk] at h
      have := ih h
      simp [maxSchemaSize]
      omega

theorem lookupSchema_strs_subset {schemas : List (String × Json)} {name : String}
    {sch : Json} (h : lookupSchema schemas name = some sch) :
    ∀ s ∈ strs sch, s ∈ strsFields schemas := by
  induction schemas with
  | nil => simp [lookupSchema] at h
  | cons kv rest ih =>
    obtain ⟨k, v⟩ := kv
    simp only [lookupSchema] at h
    by_cases hk : k = name
    · rw [if_pos hk] at h
      cases h
      intro s hs
      simp [strsFields]
      exact Or.inl hs
    · rw [if_neg hk] at h
      intro s hs
      simp [strsFields]
      exact Or.inr (ih h s hs)

theorem unvisitedCount_mono (P : List String) (p : String) (visited : List String) :
    unvisitedCount P (p :: visited) ≤ unvisitedCount P visited := by
  induction P with
  | nil => simp [unvisitedCount]
  | cons q P' ih =>
    simp only [unvisitedCount]
    by_cases h1 : q ∈ visited
    · have h2 : q ∈ p :: visited := List.mem_cons_of_mem p h1
      rw [if_pos h1, if_pos h2]
      omega
    · by_cases h2 : q ∈ p :: visited
      · rw [if_neg h1, if_pos h2]
        omega
      · rw [if_neg h1, if_neg h2]
        omega

theorem unvisitedCount_lt {P : List String} {p : String} {visited : List String}
    (hmem : p ∈ P) (hnv : p ∉ visited) :
    unvisitedCount P (p :: visited) < unvisitedCount P visited := by
  induction P with
  | nil => cases hmem
  | cons q P' ih =>
    simp only [unvisitedCount]
    rcases List.mem_cons.mp hmem with h | h
    · subst h
      have h2 : p ∈ p :: visited := List.mem_cons_self p visited
      rw [if_pos h2, if_neg hnv]
      have := unvisitedCount_mono P' p visited
      omega
    · by_cases h1 : q ∈ visited
      · have h2 : q ∈ p :: visited := List.mem_cons_of_mem p h1
        rw [if_pos h1, if_pos h2]
        have := ih h
        omega
      · by_cases h2 : q ∈ p :: visited
        · rw [if_neg h1, if_pos h2]
          have := ih h
          omega
        · rw [if_neg h1, if_neg h2]
          have := ih h
          omega

theorem isSingleRef_eq_some {fields : List (String × Json)} {v : Json}
    (h : isSingleRef fields = some v) : fields = [("$ref", v)] := by
  match fields with
  | [] => simp [isSingleRef] at h
  | [(k, w)] =>
    simp only [isSingleRef] at h
    by_cases hk : k = "$ref"
    · rw [if_pos hk] at h
      cases h
      rw [hk]
    · rw [if_neg hk] at h
      cases h
  | x :: y :: rest => simp [isSingleRef] at h

theorem resolveEach_ne_fuel {f : Json → Except RErr Json}
    {fs : List (String × Json)}
    (h : ∀ kv ∈ fs, f kv.2 ≠ .error RErr.outOfFuel) :
    resolveEach f fs ≠ .error RErr.outOfFuel := by
  induction fs with
  | nil => simp [resolveEach]
  | cons kv rest ih =>
    obtain ⟨k, v⟩ := kv
    have h1 : f v ≠ .error RErr.outOfFuel := h (k, v) (List.mem_cons_self _ _)
    have h2 : ∀ kv ∈ rest, f kv.2 ≠ .error RErr.outOfFuel :=
      fun kv hm => h kv (List.mem_cons_of_mem _ hm)
    simp only [resolveEach]
    cases hfv : f v with
    | error e =>
      cases e with
      | typeErr => simp
      | outOfFuel => exact absurd hfv h1
    | ok v' =>
      cases hre : resolveEach f rest with
      | error e =>
        cases e with
        | typeErr => simp
        | outOfFuel => exact absurd hre (ih h2)
      | ok rest' => simp

theorem resolveArr_ne_fuel {f : Json → Except RErr Json} {xs : List Json}
    (h : ∀ x ∈ xs, f x ≠ .error RErr.outOfFuel) :
    resolveArr f xs ≠ .error RErr.outOfFuel := by
  induction xs with
  | nil => simp [resolveArr]
  | cons x rest ih =>
    have h1 : f x ≠ .error RErr.outOfFuel := h x (List.mem_cons_self _ _)
    have h2 : ∀ y ∈ rest, f y ≠ .error RErr.outOfFuel :=
      fun y hm => h y (List.mem_cons_of_mem _ hm)
    simp only [resolveArr]
    cases hfv : f x with
    | error e =>
      cases e with
      | typeErr => simp
      | outOfFuel => exact absurd hfv h1
    | ok v' =>
      cases hre : resolveArr f rest with
      | error e =>
        cases e with
        | typeErr => simp
        | outOfFuel => exact absurd hre (ih h2)
      | ok rest' => simp

theorem resolveFuel_ne_outOfFuel (schemas : List (String × Json))
    (P : List String) (hP : ∀ s ∈ strsFields schemas, s ∈ P) :
    ∀ (n : Nat) (obj : Json) (visited : List String),
      (∀ s ∈ strs obj, s ∈ P) →
      jsize obj + unvisitedCount P visited * (maxSchemaSize schemas + 1) ≤ n →
      resolveFuel schemas n obj visited ≠ .error RErr.outOfFuel := by
  intro n
  induction n with
  | zero =>
    intro obj visited _ hle
    have := jsize_pos obj
    omega
  | succ n ih =>
    intro obj visited hstr hle
    cases obj with
    | null => simp [resolveFuel]
    | bool b => simp [resolveFuel]
    | str s => simp [resolveFuel]
    | num m => simp [resolveFuel]
    | arr xs =>
      have hsz : jsize (Json.arr xs) = 1 + jsizeList xs := by simp [jsize]
      have hchild : ∀ x ∈ xs,
          resolveFuel schemas n x visited ≠ .error RErr.outOfFuel := by
        intro x hx
        apply ih
        · intro s hs
          apply hstr
          have hmem : s ∈ strsList xs := mem_strsList hx s hs
          simpa [strs] using hmem
        · have h1 : jsize x < 1 + jsizeList xs := mem_jsizeList hx
          linarith
      simp only [resolveFuel]
      cases hre : resolveArr (fun v => resolveFuel schemas n v visited) xs with
      | error e =>
        cases e with
        | typeErr => simp
        | outOfFuel => exact absurd hre (resolveArr_ne_fuel hchild)
      | ok xs' => simp
    | obj fields =>
      have hszf : jsize (Json.obj fields) = 1 + jsizeFields fields := by
        simp [jsize]
      simp only [resolveFuel]
      cases hsr : isSingleRef fields with
      | none =>
        have hchild : ∀ kv ∈ fields,
            resolveFuel schemas n kv.2 visited ≠ .error RErr.outOfFuel := by
          intro kv hkv
          obtain ⟨k, v⟩ := kv
          apply ih
          · intro s hs
            apply hstr
            have hmem : s ∈ strsFields fields := mem_strsFields hkv s hs
            simpa [strs] using hmem
          · have h1 : jsize v < 1 + jsizeFields fields := mem_jsizeFields hkv
            simp only []
            linarith
        cases hre : resolveEach (fun v => resolveFuel schemas n v visited)
            fields with
        | error e =>
          cases e with
          | typeErr => simp
          | outOfFuel => exact absurd hre (resolveEach_ne_fuel hchild)
        | ok fields' => simp
      | some v =>
        cases v with
        | str refPath =>
          have hfields : fields = [("$ref", Json.str refPath)] :=
            isSingleRef_eq_some hsr
          subst hfields
          show (if startsWithStr refPath schemaPrefix = true then
              if refPath ∈ visited then Except.ok (circularMarker refPath)
              else
                match lookupSchema schemas (lastSegment refPath) with
                | some schema => resolveFuel schemas n schema (refPath :: visited)
                | none => Except.ok (Json.obj [("$ref", Json.str refPath)])
            else Except.ok (Json.obj [("$ref", Json.str refPath)])) ≠
            Except.error RErr.outOfFuel
          by_cases hsw : startsWithStr refPath schemaPrefix = true
          · rw [if_pos hsw]
            by_cases hv : refPath ∈ visited
            · rw [if_pos hv]
              simp
            · rw [if_neg hv]
              cases hlk : lookupSchema schemas (lastSegment refPath) with
              | none => simp
              | some schema =>
                apply ih
                · intro s hs
                  exact hP s (lookupSchema_strs_subset hlk s hs)
                · have hpP : refPath ∈ P := by
                    apply hstr
                    simp [strs, strsFields]
                  have hS : jsize schema ≤ maxSchemaSize schemas :=
                    lookupSchema_jsize_le hlk
                  have hu : unvisitedCount P (refPath :: visited) <
                      unvisitedCount P visited := unvisitedCount_lt hpP hv
                  have hobj : 1 ≤ jsize (Json.obj [("$ref", Json.str refPath)]) :=
                    jsize_pos _
                  have hmul : (unvisitedCount P (refPath :: visited) + 1) *
                        (maxSchemaSize schemas + 1) ≤
                      unvisitedCount P visited * (maxSchemaSize schemas + 1) :=
                    Nat.mul_le_mul_right _ (by omega)
                  have hexp : (unvisitedCount P (refPath :: visited) + 1) *
                        (maxSchemaSize schemas + 1) =
                      unvisitedCount P (refPath :: visited) *
                          (maxSchemaSize schemas + 1) +
                        (maxSchemaSize schemas + 1) := by ring
                  linarith
          · rw [if_neg hsw]
            simp
        | null => simp
        | bool b => simp
        | num m => simp
        | arr xs => simp
        | obj fs => simp

/-- Claim C3: reference resolution terminates on every input — with the
fuel `resolveBound` computed from the document the recursion never exhausts
its fuel — because a `$ref` path already in the in-progress set resolves to
the circular-reference marker carrying that path instead of recursing; in
particular a reference into the cyclic table `A → B → A` resolves to
exactly the one marker object. -/
theorem resolve_refs_terminates :
    (∀ (schemas : List (String × Json)) (obj : Json) (visited : List String),
      resolveFuel schemas (resolveBound schemas obj visited) obj visited ≠
        .error RErr.outOfFuel) ∧
    (∀ (schemas : List (String × Json)) (n : Nat) (p : String)
        (visited : List String),
      startsWithStr p schemaPrefix = true → p ∈ visited →
      resolveFuel schemas (n + 1) (Json.obj [("$ref", Json.str p)]) visited =
        .ok (circularMarker p)) ∧
    resolveFuel cycSchemas 10
        (Json.obj [("$ref", Json.str "#/components/schemas/A")]) [] =
      .ok (circularMarker "#/components/schemas/A") := by
  refine ⟨?_, ?_, rfl⟩
  · intro schemas obj visited
    exact resolveFuel_ne_outOfFuel schemas (strs obj ++ strsFields schemas)
      (fun s hs => List.mem_append_right _ hs)
      (resolveBound schemas obj visited) obj visited
      (fun s hs => List.mem_append_left _ hs)
      (by simp [resolveBound])
  · intro schemas n p visited hsw hv
    show (if startsWithStr p schemaPrefix = true then
        if p ∈ visited then Except.ok (circularMarker p)
        else
          match lookupSchema schemas (lastSegment p) with
          | some schema => resolveFuel schemas n schema (p :: visited)
          | none => Except.ok (Json.obj [("$ref", Json.str p)])
      else Except.ok (Json.obj [("$ref", Json.str p)])) =
      Except.ok (circularMarker p)
    rw [if_pos hsw, if_pos hv]

theorem resolve_refs_terminates_witness :
    resolveFuel cycSchemas
        (resolveBound cycSchemas
          (Json.obj [("$ref", Json.str "#/components/schemas/A")]) [])
        (Json.obj [("$ref", Json.str "#/components/schemas/A")]) [] ≠
      .error RErr.outOfFuel ∧
    resolveFuel cycSchemas 4
        (Json.obj [("$ref", Json.str "#/components/schemas/A")])
        ["#/components/schemas/A"] =
      .ok (circularMarker "#/components/schemas/A") :=
  ⟨resolve_refs_terminates.1 cycSchemas _ [],
   resolve_refs_terminates.2.1 cycSchemas 3 _ _ (by rfl)
     (List.mem_cons_self _ _)⟩

/-- Claim C9, counterexample: a node carrying `$ref` together with sibling
keys is not left untouched — its sibling values are still recursively
resolved, so the output differs from the input. -/
theorem ref_sibling_not_untouched :
    resolveFuel sibSchemas 5 sibObj [] = .ok sibResolved ∧
      sibResolved ≠ sibObj := by
  constructor
  · rfl
  · intro h
    simp [sibResolved, sibObj] at h

/-- Claim C9, amended: in lenient resolution a `$ref` targeting a name
absent from the component schemas is returned unchanged and a `$ref`
outside the components/schemas namespace is returned unchanged; a node
carrying `$ref` with sibling keys does not have its `$ref` entry expanded,
but its member values (the siblings) are still recursively resolved. -/
theorem ref_passthrough_lenient :
    (∀ (schemas : List (String × Json)) (n : Nat) (p : String)
        (visited : List String),
      startsWithStr p schemaPrefix = false →
      resolveFuel schemas (n + 1) (Json.obj [("$ref", Json.str p)]) visited =
        .ok (Json.obj [("$ref", Json.str p)])) ∧
    (∀ (schemas : List (String × Json)) (n : Nat) (p : String)
        (visited : List String),
      startsWithStr p schemaPrefix = true → p ∉ visited →
      lookupSchema schemas (lastSegment p) = none →
      resolveFuel schemas (n + 1) (Json.obj [("$ref", Json.str p)]) visited =
        .ok (Json.obj [("$ref", Json.str p)])) ∧
    resolveFuel sibSchemas 5 sibObj [] = .ok sibResolved := by
  refine ⟨?_, ?_, rfl⟩
  · intro schemas n p visited hsw
    show (if startsWithStr p schemaPrefix = true then
        if p ∈ visited then Except.ok (circularMarker p)
        else
          match lookupSchema schemas (lastSegment p) with
          | some schema => resolveFuel schemas n schema (p :: visited)
          | none => Except.ok (Json.obj [("$ref", Json.str p)])
      else Except.ok (Json.obj [("$ref", Json.str p)])) =
      Except.ok (Json.obj [("$ref", Json.str p)])
    rw [if_neg (by simp [hsw])]
  · intro schemas n p visited hsw hv hlk
    show (if startsWithStr p schemaPrefix = true then
        if p ∈ visited then Except.ok (circularMarker p)
        else
          match lookupSchema schemas (lastSegment p) with
          | some schema => resolveFuel schemas n schema (p :: visited)
          | none => Except.ok (Json.obj [("$ref", Json.str p)])
      else Except.ok (Json.obj [("$ref", Json.str p)])) =
      Except.ok (Json.obj [("$ref", Json.str p)])
    rw [if_pos hsw, if_neg hv, hlk]

theorem ref_passthrough_lenient_witness :
    resolveFuel sibSchemas 3 (Json.obj [("$ref", Json.str "x")]) [] =
        .ok (Json.obj [("$ref", Json.str "x")]) ∧
      resolveFuel sibSchemas 3
          (Json.obj [("$ref", Json.str "#/components/schemas/Missing")]) [] =
        .ok (Json.obj [("$ref", Json.str "#/components/schemas/Missing")]) :=
  ⟨ref_passthrough_lenient.1 sibSchemas 2 "x" [] (by rfl),
   ref_passthrough_lenient.2.1 sibSchemas 2 "#/components/schemas/Missing" []
     (by rfl) (by simp) (by rfl)⟩

theorem find?_eq_some_split {α : Type} {f : α → Bool} {l : List α} {b : α}
    (h : l.find? f = some b) :
    f b = true ∧ ∃ l₁ l₂, l = l₁ ++ b :: l₂ ∧ ∀ a ∈ l₁, f a = false := by
  induction l with
  | nil => simp [List.find?] at h
  | cons x xs ih =>
    rw [List.find?] at h
    cases hfx : f x with
    | true =>
      rw [hfx] at h
      cases h
      exact ⟨hfx, [], xs, rfl, by simp⟩
    | false =>
      rw [hfx] at h
      obtain ⟨hb, l₁, l₂, heq, hall⟩ := ih h
      refine ⟨hb, x :: l₁, l₂, by rw [heq, List.cons_append], ?_⟩
      intro a ha
      rcases List.mem_cons.mp ha with h' | h'
      · rw [h']; exact hfx
      · exact hall a h'

/-- Claim C4: for every endpoint the query parameters are packed into a
single trailing `params={...}` keyword entry with one literal key per query
parameter name — every other keyword entry is `data=data` or a path
parameter binding — and, when the operation is `get|update|delete`, the
first path parameter that is not `consumer_id` and ends in `_id` is the
sole positional argument (none when no such parameter exists). -/
theorem call_string_id_and_params (vertical model method_name : String)
    (pathParams queryParams : List String) (hasBody : Bool) :
    (method_name ∈ ["get", "update", "delete"] →
      (∀ p, pathParams.find? isIdParam = some p →
        positionalArgs method_name pathParams = [p] ∧
        p ≠ "consumer_id" ∧ endsWithStr p "_id" = true ∧
        ∃ l₁ l₂, pathParams = l₁ ++ p :: l₂ ∧ ∀ q ∈ l₁, isIdParam q = false) ∧
      (pathParams.find? isIdParam = none →
        positionalArgs method_name pathParams = [])) ∧
    (queryParams ≠ [] →
      ∃ pre, keywordArgs method_name pathParams queryParams hasBody =
          pre ++ [paramsEntry queryParams] ∧
        ∀ e ∈ pre, e = "data=data" ∨ ∃ p ∈ pathParams, e = p ++ "=" ++ p) ∧
    generate_call_string vertical model method_name pathParams queryParams
        hasBody =
      "consumer." ++ vertical ++ "." ++ model ++ "." ++ method_name ++ "(" ++
        String.intercalate ", "
          (positionalArgs method_name pathParams ++
            keywordArgs method_name pathParams queryParams hasBody) ++ ")" := by
  refine ⟨fun hm => ⟨?_, ?_⟩, ?_, rfl⟩
  · intro p hp
    obtain ⟨hb, l₁, l₂, heq, hall⟩ := find?_eq_some_split hp
    have hb' := hb
    simp only [isIdParam, Bool.and_eq_true, decide_eq_true_eq] at hb'
    exact ⟨by simp [positionalArgs, hm, hp], hb'.1, hb'.2, l₁, l₂, heq, hall⟩
  · intro h
    simp [positionalArgs, hm, h]
  · intro hq
    have hqe : queryParams.isEmpty = false := by
      cases queryParams with
      | nil => exact absurd rfl hq
      | cons a as => rfl
    refine ⟨(if hasBody ∧ method_name ∈ ["create", "update"] then
        ["data=data"] else []) ++
      (pathParams.filter (fun p =>
          decide (p ≠ "consumer_id") &&
            decide (p ∉ positionalArgs method_name pathParams))).map
        (fun p => p ++ "=" ++ p), ?_, ?_⟩
    · simp [keywordArgs, hqe]
    · intro e he
      rcases List.mem_append.mp he with h1 | h1
      · left
        split at h1
        · simpa using h1
        · simp at h1
      · right
        obtain ⟨p, hp, hpe⟩ := List.mem_map.mp h1
        exact ⟨p, List.mem_of_mem_filter hp, hpe.symm⟩

theorem call_string_id_and_params_witness :
    positionalArgs "get" ["consumer_id", "order_id"] = ["order_id"] ∧
    (∃ pre, keywordArgs "all" ["consumer_id"] ["page", "size", "date_from"]
          false =
        pre ++ [paramsEntry ["page", "size", "date_from"]] ∧
      ∀ e ∈ pre,
        e = "data=data" ∨ ∃ p ∈ ["consumer_id"], e = p ++ "=" ++ p) ∧
    ∃ pre, keywordArgs "create" ["consumer_id"] ["date_from"] true =
        pre ++ [paramsEntry ["date_from"]] ∧
      ∀ e ∈ pre,
        e = "data=data" ∨ ∃ p ∈ ["consumer_id"], e = p ++ "=" ++ p :=
  ⟨(((call_string_id_and_params "pos" "Order" "get" ["consumer_id", "order_id"]
        ["date_from"] false).1 (by simp)).1 "order_id" (by rfl)).1,
   (call_string_id_and_params "pos" "Order" "all" ["consumer_id"]
        ["page", "size", "date_from"] false).2.1 (by simp),
   (call_string_id_and_params "pos" "Order" "create" ["consumer_id"]
        ["date_from"] true).2.1 (by simp)⟩

theorem takeWhile_all {α : Type} {p : α → Bool} {xs : List α}
    (h : ∀ c ∈ xs, p c = true) : xs.takeWhile p = xs := by
  induction xs with
  | nil => rfl
  | cons x xs ih =>
    have hx := h x (List.mem_cons_self _ _)
    simp [List.takeWhile_cons, hx,
      ih (fun c hc => h c (List.mem_cons_of_mem _ hc))]

theorem takeWhile_append_stop {α : Type} {p : α → Bool} {xs : List α} {y : α}
    {ys : List α} (h : ∀ c ∈ xs, p c = true) (hy : p y = false) :
    (xs ++ y :: ys).takeWhile p = xs := by
  induction xs with
  | nil => simp [List.takeWhile_cons, hy]
  | cons x xs ih =>
    have hx := h x (List.mem_cons_self _ _)
    simp [List.takeWhile_cons, hx,
      ih (fun c hc => h c (List.mem_cons_of_mem _ hc))]

theorem dropWhile_append_stop {α : Type} {p : α → Bool} {xs : List α} {y : α}
    {ys : List α} (h : ∀ c ∈ xs, p c = true) (hy : p y = false) :
    (xs ++ y :: ys).dropWhile p = y :: ys := by
  induction xs with
  | nil => simp [List.dropWhile_cons, hy]
  | cons x xs ih =>
    have hx := h x (List.mem_cons_self _ _)
    simp [List.dropWhile_cons, hx,
      ih (fun c hc => h c (List.mem_cons_of_mem _ hc))]

theorem stripLit_append (lit rest : List Char) :
    stripLit lit (lit ++ rest) = some rest := by
  induction lit with
  | nil => rfl
  | cons c cs ih => simp [stripLit, ih]

theorem matchTwoSeg_eq (cid v r rest : List Char)
    (hcid : cid ≠ []) (hcidc : ∀ c ∈ cid, c ≠ '}')
    (hv : v ≠ []) (hvc : ∀ c ∈ v, c ≠ '/')
    (hr : r ≠ []) (hrc : ∀ c ∈ r, c ≠ '/' ∧ c ≠ '{')
    (hrest : rest.head? = some '/' ∨ rest.head? = some '{' ∨ rest = []) :
    matchTwoSeg
        ("/consumers/\x7b".toList ++
          (cid ++ ('}' :: '/' :: (v ++ ('/' :: (r ++ rest)))))) =
      some (v, r) := by
  have hcid' : ∀ c ∈ cid, (c != '}') = true := by
    intro c hc
    simpa using hcidc c hc
  have hcide : cid.isEmpty = false := by
    cases cid with
    | nil => exact absurd rfl hcid
    | cons a as => rfl
  have hv' : ∀ c ∈ v, (c != '/') = true := by
    intro c hc
    simpa using hvc c hc
  have hve : v.isEmpty = false := by
    cases v with
    | nil => exact absurd rfl hv
    | cons a as => rfl
  have hr' : ∀ c ∈ r, (c != '/' && c != '{') = true := by
    intro c hc
    have := hrc c hc
    simp [this.1, this.2]
  have hre : r.isEmpty = false := by
    cases r with
    | nil => exact absurd rfl hr
    | cons a as => rfl
  have hmd : (r ++ rest).takeWhile (fun c => c != '/' && c != '{') = r := by
    rcases hrest with h | h | h
    · obtain ⟨c, rest', rfl⟩ : ∃ c rest', rest = c :: rest' := by
        cases rest with
        | nil => simp at h
        | cons c rest' => exact ⟨c, rest', rfl⟩
      have hc : c = '/' := by simpa using h
      exact takeWhile_append_stop hr' (by simp [hc])
    · obtain ⟨c, rest', rfl⟩ : ∃ c rest', rest = c :: rest' := by
        cases rest with
        | nil => simp at h
        | cons c rest' => exact ⟨c, rest', rfl⟩
      have hc : c = '{' := by simpa using h
      exact takeWhile_append_stop hr' (by simp [hc])
    · subst h
      rw [List.append_nil]
      exact takeWhile_all hr'
  unfold matchTwoSeg
  rw [stripLit_append]
  show matchAfterBrace (cid ++ ('}' :: '/' :: (v ++ ('/' :: (r ++ rest))))) =
    some (v, r)
  simp only [matchAfterBrace]
  rw [takeWhile_append_stop hcid' (by rfl),
    dropWhile_append_stop hcid' (by rfl), hcide]
  simp only [Bool.false_eq_true, if_false]
  show matchVert (v ++ ('/' :: (r ++ rest))) = some (v, r)
  simp only [matchVert]
  rw [takeWhile_append_stop hv' (by rfl), dropWhile_append_stop hv' (by rfl),
    hve]
  simp only [Bool.false_eq_true, if_false]
  show matchModel v (r ++ rest) = some (v, r)
  simp only [matchModel]
  rw [hmd, hre]
  simp

/-- Claim C5, counterexample: `/consumers/{cid}/pos` fails the two-segment
match and is not the bare `/consumers` path (it carries a vertical
segment), yet classification yields the synthetic `(account, consumer)`
instead of producing no endpoint. -/
theorem extract_vertical_model_nonbare :
    extract_vertical_model "/consumers/{cid}/pos" =
        some ("account", "consumer") ∧
      matchTwoSeg "/consumers/{cid}/pos".toList = none ∧
      ("/consumers/{cid}/pos" : String) ≠ "/consumers" := by
  refine ⟨rfl, rfl, by decide⟩

/-- Claim C5, amended: a path of the two-segment consumer-scoped shape
yields `(vertical, resource)` with `-` normalized to `_` and any trailing
path-parameter segment stripped; any other path equal to `/consumers` or
starting with `/consumers/{` (bare or not) yields the synthetic
`(account, consumer)`; paths matching neither condition produce no
endpoint. -/
theorem extract_vertical_model_spec :
    (∀ cid v r rest : List Char,
      cid ≠ [] → (∀ c ∈ cid, c ≠ '}') →
      v ≠ [] → (∀ c ∈ v, c ≠ '/') →
      r ≠ [] → (∀ c ∈ r, c ≠ '/' ∧ c ≠ '{') →
      (rest.head? = some '/' ∨ rest.head? = some '{' ∨ rest = []) →
      extract_vertical_model
          (String.mk ("/consumers/\x7b".toList ++
            (cid ++ ('}' :: '/' :: (v ++ ('/' :: (r ++ rest))))))) =
        some (String.mk v, String.mk (normDash r))) ∧
    (∀ path : String, matchTwoSeg path.toList = none →
      (path = "/consumers" ∨ startsWithStr path "/consumers/\x7b" = true) →
      extract_vertical_model path = some ("account", "consumer")) ∧
    (∀ path : String, matchTwoSeg path.toList = none →
      path ≠ "/consumers" → startsWithStr path "/consumers/\x7b" = false →
      extract_vertical_model path = none) := by
  refine ⟨?_, ?_, ?_⟩
  · intro cid v r rest hcid hcidc hv hvc hr hrc hrest
    unfold extract_vertical_model
    have hL : (String.mk ("/consumers/\x7b".toList ++
        (cid ++ ('}' :: '/' :: (v ++ ('/' :: (r ++ rest))))))).toList =
        "/consumers/\x7b".toList ++
          (cid ++ ('}' :: '/' :: (v ++ ('/' :: (r ++ rest))))) := rfl
    rw [hL, matchTwoSeg_eq cid v r rest hcid hcidc hv hvc hr hrc hrest]
  · intro path h hcond
    unfold extract_vertical_model
    rw [h]
    exact if_pos hcond
  · intro path h h1 h2
    unfold extract_vertical_model
    rw [h]
    refine if_neg ?_
    rintro (hc | hc)
    · exact h1 hc
    · rw [h2] at hc
      cases hc

theorem extract_vertical_model_spec_witness :
    extract_vertical_model
        (String.mk ("/consumers/\x7b".toList ++
          ("cid".toList ++ ('}' :: '/' :: ("pos".toList ++
            ('/' :: ("journal-entries".toList ++ "/{je_id}".toList))))))) =
        some (String.mk "pos".toList,
          String.mk (normDash "journal-entries".toList)) ∧
      extract_vertical_model "/consumers" = some ("account", "consumer") ∧
      extract_vertical_model "/widgets" = none :=
  ⟨extract_vertical_model_spec.1 "cid".toList "pos".toList
      "journal-entries".toList "/{je_id}".toList (by decide) (by decide)
      (by decide) (by decide) (by decide) (by decide) (by decide),
   extract_vertical_model_spec.2.1 "/consumers" (by rfl) (Or.inl rfl),
   extract_vertical_model_spec.2.2 "/widgets" (by rfl) (by decide) (by rfl)⟩

theorem toolVisible_iff (cts : List String) (t : Tool) :
    toolVisible cts t = true ↔
      ∃ tg, t.tags = some tg ∧ ∃ tag ∈ tg, tag ∈ cts := by
  cases htg : t.tags with
  | none => simp [toolVisible, htg]
  | some tg =>
    cases tg with
    | nil => simp [toolVisible, htg]
    | cons a as =>
      simp [toolVisible, htg, List.any_eq_true]

/-- Claim C6: with no bound caller the full registry is returned
unfiltered; with a bound caller entitled to `cts` the result contains
exactly the tools carrying some tag in `cts` — in particular a tool whose
tag set is the singleton `[tag]` is listed iff `tag` is entitled. -/
theorem filter_tools_by_capability :
    (∀ (cts : List String) (tools : List Tool),
      on_list_tools none cts tools = tools) ∧
    (∀ (cid : String) (cts : List String) (tools : List Tool) (t : Tool),
      t ∈ on_list_tools (some cid) cts tools ↔
        t ∈ tools ∧ ∃ tg, t.tags = some tg ∧ ∃ tag ∈ tg, tag ∈ cts) ∧
    (∀ (cid : String) (cts : List String) (tools : List Tool) (t : Tool)
        (tag : String),
      t.tags = some [tag] →
      (t ∈ on_list_tools (some cid) cts tools ↔ t ∈ tools ∧ tag ∈ cts)) := by
  refine ⟨fun _ _ => rfl, ?_, ?_⟩
  · intro cid cts tools t
    rw [show on_list_tools (some cid) cts tools =
        tools.filter (toolVisible cts) from rfl, List.mem_filter,
      toolVisible_iff]
  · intro cid cts tools t tag htg
    rw [show on_list_tools (some cid) cts tools =
        tools.filter (toolVisible cts) from rfl, List.mem_filter,
      toolVisible_iff]
    simp [htg]

theorem filter_tools_by_capability_witness :
    on_list_tools none ["pos"] [exToolPos, exToolAcc] =
        [exToolPos, exToolAcc] ∧
      (exToolPos ∈ on_list_tools (some "c1") ["pos"] [exToolPos, exToolAcc] ↔
        exToolPos ∈ [exToolPos, exToolAcc] ∧ ("pos" : String) ∈ ["pos"]) :=
  ⟨filter_tools_by_capability.1 ["pos"] [exToolPos, exToolAcc],
   filter_tools_by_capability.2.2 "c1" ["pos"] [exToolPos, exToolAcc]
     exToolPos "pos" rfl⟩

/-- Claim C10: a scoped caller never sees a tool whose tag set is empty or
unset, regardless of the entitled capability set. -/
theorem scoped_listing_only_tagged_tools (cid : String) (cts : List String)
    (tools : List Tool) (t : Tool)
    (h : t ∈ on_list_tools (some cid) cts tools) :
    ∃ tg, t.tags = some tg ∧ tg ≠ [] := by
  rw [show on_list_tools (some cid) cts tools =
      tools.filter (toolVisible cts) from rfl, List.mem_filter] at h
  obtain ⟨tg, htg, tag, hmem, _⟩ := (toolVisible_iff cts t).mp h.2
  exact ⟨tg, htg, fun he => by simp [he] at hmem⟩

theorem scoped_listing_only_tagged_tools_witness :
    ∃ tg, exToolPos.tags = some tg ∧ tg ≠ [] :=
  scoped_listing_only_tagged_tools "c1" ["pos"] [exToolPos] exToolPos
    (by
      rw [show on_list_tools (some "c1") ["pos"] [exToolPos] =
          [exToolPos] from rfl]
      exact List.mem_cons_self _ _)

/-- Claim C7, counterexample: a connection whose API family is missing from
the fixed table makes entitlement computation fail (Python `KeyError`,
modelled `none`) instead of silently dropping the connection and returning
the mapped tags. -/
theorem connection_types_unmapped_raises :
    get_connection_types (some "c1") ["Accounting", "Unknown"] = none ∧
      (none : Option (List String)) ≠ some ["accounting"] := by
  refine ⟨rfl, by simp⟩

theorem mapTypes_ne_none {conns : List String}
    (h : ∀ api ∈ conns, (lookupType CONNECTION_TYPES api).isSome) :
    ∃ tags, mapTypes conns = some tags ∧ tags.length = conns.length ∧
      ∀ (i : Nat) (hi : i < conns.length) (ht : i < tags.length),
        lookupType CONNECTION_TYPES (conns.get ⟨i, hi⟩) =
          some (tags.get ⟨i, ht⟩) := by
  induction conns with
  | nil => exact ⟨[], rfl, rfl, fun i hi => by cases hi⟩
  | cons api rest ih =>
    have h1 := h api (List.mem_cons_self _ _)
    obtain ⟨t, ht⟩ := Option.isSome_iff_exists.mp h1
    obtain ⟨tags, htags, hlen, hidx⟩ :=
      ih (fun a ha => h a (List.mem_cons_of_mem _ ha))
    refine ⟨t :: tags, ?_, by simp [hlen], ?_⟩
    · simp only [mapTypes, ht, htags]
    · intro i hi hti
      cases i with
      | zero => simpa using ht
      | succ j =>
        have hj : j < rest.length := by simpa using hi
        have htj : j < tags.length := by simpa using hti
        simpa using hidx j hj htj

theorem mapTypes_eq_none {conns : List String} {api : String}
    (hmem : api ∈ conns) (h : lookupType CONNECTION_TYPES api = none) :
    mapTypes conns = none := by
  induction conns with
  | nil => cases hmem
  | cons a rest ih =>
    rcases List.mem_cons.mp hmem with h' | h'
    · subst h'
      simp only [mapTypes, h]
    · simp only [mapTypes]
      cases lookupType CONNECTION_TYPES a with
      | none => rfl
      | some t => rw [ih h']

/-- Claim C7, amended: entitlement computation maps each connection's API
family through the fixed table and fails (`KeyError`) as soon as any family
has no table entry; only when every family is mapped does it return the
mapped tags, in connection order. -/
theorem connection_types_strict :
    (∀ (cid : String) (conns : List String),
      (∀ api ∈ conns, (lookupType CONNECTION_TYPES api).isSome) →
      ∃ tags, get_connection_types (some cid) conns = some tags ∧
        tags.length = conns.length ∧
        ∀ (i : Nat) (hi : i < conns.length) (ht : i < tags.length),
          lookupType CONNECTION_TYPES (conns.get ⟨i, hi⟩) =
            some (tags.get ⟨i, ht⟩)) ∧
    (∀ (cid : String) (conns : List String) (api : String),
      api ∈ conns → lookupType CONNECTION_TYPES api = none →
      get_connection_types (some cid) conns = none) ∧
    get_connection_types none [] =
      some ["accounting", "pos", "ecommerce", "invoicing", "banking",
        "payment", "pms", "custom"] := by
  refine ⟨?_, ?_, rfl⟩
  · intro cid conns h
    exact mapTypes_ne_none h
  · intro cid conns api hmem h
    exact mapTypes_eq_none hmem h

theorem connection_types_strict_witness :
    (∃ tags,
      get_connection_types (some "c1") ["Accounting", "Point of Sale"] =
          some tags ∧
        tags.length = (["Accounting", "Point of Sale"] : List String).length ∧
        ∀ (i : Nat) (hi : i < (["Accounting", "Point of Sale"] :
            List String).length) (ht : i < tags.length),
          lookupType CONNECTION_TYPES
              ((["Accounting", "Point of Sale"] : List String).get ⟨i, hi⟩) =
            some (tags.get ⟨i, ht⟩)) ∧
      get_connection_types (some "c1") ["Unknown"] = none :=
  ⟨connection_types_strict.1 "c1" ["Accounting", "Point of Sale"]
      (by decide),
   connection_types_strict.2.1 "c1" ["Unknown"] "Unknown"
     (List.mem_cons_self _ _) rfl⟩

theorem dedupOps_eq (ops : List String) :
    ∀ acc, (∀ op ∈ ops, op ∈ CHIFT_OPERATION_TYPES) →
      dedupOps acc ops =
        .ok (acc ++ (dedupFirst ops).filter (fun y => decide (y ∉ acc))) := by
  induction ops with
  | nil => intro acc _; simp [dedupOps, dedupFirst]
  | cons x xs ih =>
    intro acc hval
    have hx : x ∈ CHIFT_OPERATION_TYPES := hval x (List.mem_cons_self _ _)
    have hrest : ∀ op ∈ xs, op ∈ CHIFT_OPERATION_TYPES :=
      fun op hop => hval op (List.mem_cons_of_mem _ hop)
    simp only [dedupOps, hx, not_true_eq_false, if_false]
    by_cases hacc : x ∈ acc
    · rw [if_pos hacc, ih acc hrest]
      congr 1
      simp only [dedupFirst, List.filter_cons]
      have hxa : decide (x ∉ acc) = false := by simp [hacc]
      rw [hxa]
      simp only [Bool.false_eq_true, if_false]
      rw [List.filter_filter]
      congr 1
      apply List.filter_congr
      intro y _
      by_cases hy : y ∈ acc
      · simp [hy]
      · have hyx : y ≠ x := fun he => hy (he ▸ hacc)
        simp [hy, hyx]
    · rw [if_neg hacc, ih (acc ++ [x]) hrest]
      congr 1
      simp only [dedupFirst, List.filter_cons]
      have hxa : decide (x ∉ acc) = true := by simp [hacc]
      rw [List.append_assoc]
      congr 1
      rw [hxa]
      simp only [if_true]
      rw [List.filter_filter, List.singleton_append]
      congr 1
      apply List.filter_congr
      intro y _
      by_cases hy : y ∈ acc
      · simp [hy]
      · by_cases hyx : y = x
        · simp [hyx]
        · simp [hy, hyx]

theorem dedupOps_error_of_bad {ops : List String}
    (h : ∃ op ∈ ops, op ∉ CHIFT_OPERATION_TYPES) :
    ∀ acc, ∃ e, dedupOps acc ops = .error e := by
  induction ops with
  | nil => obtain ⟨op, hop, _⟩ := h; cases hop
  | cons x xs ih =>
    intro acc
    by_cases hx : x ∈ CHIFT_OPERATION_TYPES
    · have h' : ∃ op ∈ xs, op ∉ CHIFT_OPERATION_TYPES := by
        obtain ⟨op, hop, hbad⟩ := h
        rcases List.mem_cons.mp hop with he | he
        · exact absurd hx (he ▸ hbad)
        · exact ⟨op, he, hbad⟩
      simp only [dedupOps, hx, not_true_eq_false, if_false]
      by_cases hacc : x ∈ acc
      · rw [if_pos hacc]
        exact ih h' acc
      · rw [if_neg hacc]
        exact ih h' (acc ++ [x])
    · exact ⟨_, by rw [dedupOps, if_pos hx]⟩

theorem validateEntries_ok (entries : List (String × OpsVal))
    (h : ∀ en ∈ entries, ¬ entryBad en) :
    validateEntries entries =
      .ok (entries.map (fun en => (en.1,
        match en.2 with
        | OpsVal.list ops => dedupFirst ops
        | OpsVal.notAList => []))) := by
  induction entries with
  | nil => rfl
  | cons en rest ih =>
    obtain ⟨domain, ops⟩ := en
    have hgood := h (domain, ops) (List.mem_cons_self _ _)
    have hdom : domain ∈ CHIFT_DOMAINS := by
      by_contra hd
      exact hgood (Or.inl hd)
    cases ops with
    | notAList => exact absurd (Or.inr (Or.inl rfl)) hgood
    | list l =>
      have hl : ∀ op ∈ l, op ∈ CHIFT_OPERATION_TYPES := by
        intro op hop
        by_contra hbad
        exact hgood (Or.inr (Or.inr ⟨l, rfl, op, hop, hbad⟩))
      have hded : dedupOps [] l = .ok (dedupFirst l) := by
        rw [dedupOps_eq l [] hl]
        simp
      simp only [validateEntries, hdom, not_true_eq_false, if_false]
      rw [hded, ih (fun e he => h e (List.mem_cons_of_mem _ he))]
      rfl

theorem validateEntries_error (entries : List (String × OpsVal))
    (h : ∃ en ∈ entries, entryBad en) :
    ∃ e, validateEntries entries = .error e := by
  induction entries with
  | nil => obtain ⟨en, hen, _⟩ := h; cases hen
  | cons en rest ih =>
    obtain ⟨domain, ops⟩ := en
    by_cases hbad : entryBad (domain, ops)
    · by_cases h1 : domain ∉ CHIFT_DOMAINS
      · exact ⟨_, by simp only [validateEntries]; rw [if_pos h1]⟩
      · rcases hbad with h2 | h2 | h2
        · exact absurd h2 h1
        · cases ops with
          | list l => cases h2
          | notAList =>
            exact ⟨_, by simp only [validateEntries]; rw [if_neg h1]⟩
        · obtain ⟨ops', heq, op, hop, hbadop⟩ := h2
          cases ops with
          | notAList => cases heq
          | list l =>
            have hll : l = ops' := by
              injection heq
            subst hll
            obtain ⟨e, he⟩ := dedupOps_error_of_bad ⟨op, hop, hbadop⟩ []
            refine ⟨e, ?_⟩
            simp only [validateEntries]
            rw [if_neg h1, he]
    · have h' : ∃ en ∈ rest, entryBad en := by
        obtain ⟨en, hen, hb⟩ := h
        rcases List.mem_cons.mp hen with he | he
        · exact absurd (he ▸ hb) hbad
        · exact ⟨en, he, hb⟩
      obtain ⟨e, he⟩ := ih h'
      have hdom : domain ∈ CHIFT_DOMAINS := by
        by_contra hd
        exact hbad (Or.inl hd)
      cases ops with
      | notAList => exact absurd (Or.inr (Or.inl rfl)) hbad
      | list l =>
        have hl : ∀ op ∈ l, op ∈ CHIFT_OPERATION_TYPES := by
          intro op hop
          by_contra hb
          exact hbad (Or.inr (Or.inr ⟨l, rfl, op, hop, hb⟩))
        refine ⟨e, ?_⟩
        simp only [validateEntries, hdom, not_true_eq_false, if_false]
        rw [dedupOps_eq l [] hl, he]

/-- Claim C8: validation deduplicates repeated operation kinds per domain
keeping first occurrences — `{"accounting": ["get","get","update"]}`
validates to `{"accounting": ["get","update"]}` — and raises a
`ValueError` exactly when the config is not a mapping, a domain is
unrecognized (`{"bogus": ["get"]}` raises), a domain's operations value is
not a list, or an operation kind is unrecognized. -/
theorem validate_config_spec :
    validate_config
        (ConfigInput.dict
          [("accounting", OpsVal.list ["get", "get", "update"])]) =
      .ok [("accounting", ["get", "update"])] ∧
    validate_config (ConfigInput.dict [("bogus", OpsVal.list ["get"])]) =
      .error "Invalid domain: bogus" ∧
    (∀ input : ConfigInput,
      (∃ e, validate_config input = .error e) ↔
        (input = ConfigInput.notADict ∨
          ∃ entries, input = ConfigInput.dict entries ∧
            ∃ en ∈ entries, entryBad en)) ∧
    (∀ entries : List (String × OpsVal), (∀ en ∈ entries, ¬ entryBad en) →
      validate_config (ConfigInput.dict entries) =
        .ok (entries.map (fun en => (en.1,
          match en.2 with
          | OpsVal.list ops => dedupFirst ops
          | OpsVal.notAList => [])))) := by
  refine ⟨rfl, rfl, ?_, ?_⟩
  · intro input
    constructor
    · rintro ⟨e, he⟩
      cases input with
      | notADict => exact Or.inl rfl
      | dict entries =>
        refine Or.inr ⟨entries, rfl, ?_⟩
        by_contra hno
        push_neg at hno
        rw [show validate_config (ConfigInput.dict entries) =
            validateEntries entries from rfl,
          validateEntries_ok entries hno] at he
        cases he
    · rintro (rfl | ⟨entries, rfl, hbad⟩)
      · exact ⟨_, rfl⟩
      · exact validateEntries_error entries hbad
  · intro entries h
    exact validateEntries_ok entries h

theorem validate_config_spec_witness :
    (∃ e, validate_config ConfigInput.notADict = .error e) ∧
      validate_config (ConfigInput.dict []) = .ok [] :=
  ⟨(validate_config_spec.2.2.1 ConfigInput.notADict).mpr (Or.inl rfl),
   by simpa using validate_config_spec.2.2.2 [] (by simp)⟩

end ChiftMcp
